import Mathlib

/-!
Verification of the bcws peer-to-peer blockchain node.

Shallow embedding of the Python sources under `bcws/`:
Python strings are modelled as lists of code points (`Str`), Python `bytes`
as lists of `Fin 256`, and Python `dict`s as insertion-ordered association
lists (`Dict`) with the usual dict operations.  SHA-256 and ECDSA signature
verification are external primitives (`hashlib`, `ecdsa`); they are taken
as parameters (`hashFn`, `verify`) of the embedded functions.
-/

/-- Bytes of a Python `bytes` object. -/
abbrev Byte := Fin 256

/-- A Python string, modelled as its list of code points. -/
abbrev Str := List Nat

/-! ### Python dicts as insertion-ordered association lists -/

/-- Python dict lookup: `d[k]` / `d.get(k)` (first binding; keys are unique
by construction of the update operations). -/
def dlookup {α β : Type} [DecidableEq α] : List (α × β) → α → Option β
  | [], _ => none
  | (k', v) :: rest, k => if k' = k then some v else dlookup rest k

/-- Python `d.get(k, dflt)`. -/
def dgetD {α β : Type} [DecidableEq α] (d : List (α × β)) (k : α) (dflt : β) : β :=
  (dlookup d k).getD dflt

/-- Python `d[k] = v`: replace in place if the key is present, else append
(insertion order of Python dicts). -/
def dset {α β : Type} [DecidableEq α] : List (α × β) → α → β → List (α × β)
  | [], k, v => [(k, v)]
  | (k', v') :: rest, k, v =>
      if k' = k then (k, v) :: rest else (k', v') :: dset rest k v

/-- Python `d.setdefault(k, v)`: insert `(k, v)` only if `k` is absent. -/
def dsetdefault {α β : Type} [DecidableEq α] : List (α × β) → α → β → List (α × β)
  | [], k, v => [(k, v)]
  | (k', v') :: rest, k, v =>
      if k' = k then (k', v') :: rest else (k', v') :: dsetdefault rest k v

/-- Python `del d[k]` / `d.pop(k, None)`: drop the binding of `k`, if any. -/
def dpop {α β : Type} [DecidableEq α] : List (α × β) → α → List (α × β)
  | [], _ => []
  | (k', v') :: rest, k => if k' = k then rest else (k', v') :: dpop rest k

/-- Python `list(d.keys())`. -/
def dkeys {α β : Type} (d : List (α × β)) : List α := d.map Prod.fst

/-- Python `list(d.values())`. -/
def dvalues {α β : Type} (d : List (α × β)) : List β := d.map Prod.snd

theorem dlookup_dset_self {α β : Type} [DecidableEq α] (d : List (α × β)) (k : α) (v : β) :
    dlookup (dset d k v) k = some v := by
  induction d with
  | nil => simp [dset, dlookup]
  | cons hd tl ih =>
    obtain ⟨k', v'⟩ := hd
    by_cases h : k' = k <;> simp [dset, dlookup, h, ih]

theorem dlookup_dset_ne {α β : Type} [DecidableEq α] (d : List (α × β)) (k k' : α) (v : β)
    (h : k ≠ k') : dlookup (dset d k v) k' = dlookup d k' := by
  induction d with
  | nil => simp [dset, dlookup, h]
  | cons hd tl ih =>
    obtain ⟨k₀, v₀⟩ := hd
    by_cases h0 : k₀ = k
    · subst h0
      simp [dset, dlookup, h]
    · simp [dset, dlookup, h0, ih]

theorem dkeys_cons {α β : Type} (k₀ : α) (v₀ : β) (tl : List (α × β)) :
    dkeys ((k₀, v₀) :: tl) = k₀ :: dkeys tl := rfl

theorem dgetD_dsetdefault {α β : Type} [DecidableEq α] (d : List (α × β)) (k a : α) (z : β) :
    dgetD (dsetdefault d k z) a z = dgetD d a z := by
  induction d with
  | nil =>
    by_cases h : k = a <;> simp [dsetdefault, dgetD, dlookup, h]
  | cons hd tl ih =>
    obtain ⟨k₀, v₀⟩ := hd
    by_cases h0 : k₀ = k
    · subst h0
      simp [dsetdefault, dgetD, dlookup]
    · by_cases h1 : k₀ = a
      · subst h1
        simp [dsetdefault, dgetD, dlookup, h0]
      · simp only [dsetdefault, if_neg h0]
        simp only [dgetD, dlookup, if_neg h1] at ih ⊢
        exact ih

theorem dlookup_dsetdefault_of_ne {α β : Type} [DecidableEq α] (d : List (α × β)) (k a : α)
    (z : β) (h : k ≠ a) : dlookup (dsetdefault d k z) a = dlookup d a := by
  induction d with
  | nil => simp [dsetdefault, dlookup, h]
  | cons hd tl ih =>
    obtain ⟨k₀, v₀⟩ := hd
    by_cases h0 : k₀ = k
    · subst h0
      simp [dsetdefault, dlookup]
    · simp [dsetdefault, dlookup, h0, ih]

theorem dset_of_absent {α β : Type} [DecidableEq α] (d : List (α × β)) (k : α) (v : β)
    (h : dlookup d k = none) : dset d k v = d ++ [(k, v)] := by
  induction d with
  | nil => simp [dset]
  | cons hd tl ih =>
    obtain ⟨k₀, v₀⟩ := hd
    by_cases h0 : k₀ = k
    · simp [dlookup, h0] at h
    · simp [dlookup, h0] at h
      simp [dset, h0, ih h]

theorem dpop_append_fresh {α β : Type} [DecidableEq α] (d : List (α × β)) (k : α) (v : β)
    (h : dlookup d k = none) : dpop (d ++ [(k, v)]) k = d := by
  induction d with
  | nil => simp [dpop]
  | cons hd tl ih =>
    obtain ⟨k₀, v₀⟩ := hd
    by_cases h0 : k₀ = k
    · simp [dlookup, h0] at h
    · simp [dlookup, h0] at h
      simp [dpop, h0, ih h]

theorem dpop_length {α β : Type} [DecidableEq α] (d : List (α × β)) (k : α)
    (h : k ∈ dkeys d) : (dpop d k).length + 1 = d.length := by
  induction d with
  | nil => simp [dkeys] at h
  | cons hd tl ih =>
    obtain ⟨k₀, v₀⟩ := hd
    by_cases h0 : k₀ = k
    · simp [dpop, h0]
    · rw [dkeys_cons] at h
      rcases List.mem_cons.mp h with h | h
      · exact absurd h.symm h0
      · simp [dpop, h0, ih h]

theorem dkeys_dpop_subset {α β : Type} [DecidableEq α] (d : List (α × β)) (k a : α)
    (h : a ∈ dkeys (dpop d k)) : a ∈ dkeys d := by
  induction d with
  | nil => simpa [dpop] using h
  | cons hd tl ih =>
    obtain ⟨k₀, v₀⟩ := hd
    by_cases h0 : k₀ = k
    · rw [dkeys_cons]
      exact List.mem_cons.mpr (Or.inr (by simpa [dpop, h0] using h))
    · rw [dkeys_cons]
      simp only [dpop, if_neg h0, dkeys_cons] at h
      rcases List.mem_cons.mp h with h | h
      · exact List.mem_cons.mpr (Or.inl h)
      · exact List.mem_cons.mpr (Or.inr (ih h))

theorem dlookup_isSome_of_mem_dset {α β : Type} [DecidableEq α] (d : List (α × β)) (k k' : α)
    (v : β) (h : (dlookup d k').isSome) : (dlookup (dset d k v) k').isSome := by
  by_cases hk : k = k'
  · subst hk
    simp [dlookup_dset_self]
  · rwa [dlookup_dset_ne _ _ _ _ hk]

/-! ### Decimal and hexadecimal printing and parsing

Python's f-string `f"{n}"` prints a nonnegative int in decimal; `int(s)`
parses it back; `bytes.hex()` prints lowercase hex; `bytes.fromhex` parses
pairs of hex digits.  The parsers below model the Python conversions on
canonical inputs (no sign, no whitespace), which is all the serialised
forms ever contain.
-/

/-- Code point of the decimal digit `d` (`48` is `'0'`). -/
def digitCode (d : Nat) : Nat := 48 + d

/-- Digits of `n` in decimal, most significant first, by structural fuel
recursion (so that it reduces inside the kernel); `fuel ≥ n` suffices. -/
def natDecAux : Nat → Nat → Str
  | 0, _ => []
  | fuel + 1, n => if n = 0 then [] else natDecAux fuel (n / 10) ++ [digitCode (n % 10)]

/-- Decimal form of a nonnegative integer, as printed by `f"{n}"`. -/
def natDec (n : Nat) : Str :=
  if n = 0 then [48] else natDecAux n n

theorem natDecAux_eq (fuel n : Nat) (h : n ≤ fuel) :
    natDecAux fuel n = ((Nat.digits 10 n).reverse).map digitCode := by
  induction fuel generalizing n with
  | zero =>
    have hn : n = 0 := by omega
    subst hn
    simp [natDecAux]
  | succ fuel ih =>
    by_cases hn : n = 0
    · subst hn
      simp [natDecAux]
    · rw [natDecAux, if_neg hn,
        ih (n / 10) (by
          have := Nat.div_lt_self (Nat.pos_of_ne_zero hn) (by norm_num : 1 < 10)
          omega),
        Nat.digits_def' (by norm_num : 1 < 10) (Nat.pos_of_ne_zero hn)]
      simp

theorem natDec_eq_digits (n : Nat) :
    natDec n = if n = 0 then [48] else ((Nat.digits 10 n).reverse).map digitCode := by
  unfold natDec
  split
  · rfl
  · exact natDecAux_eq n n le_rfl

/-- Is `c` the code point of a decimal digit? -/
def isDigitCode (c : Nat) : Bool := 48 ≤ c && c ≤ 57

/-- Parse a canonical decimal string, as `int(s)` does on the output of
`f"{n}"`; `none` models the `ValueError` on malformed input. -/
def parseNat (s : Str) : Option Nat :=
  if s ≠ [] ∧ s.all isDigitCode then
    some (s.foldl (fun a c => a * 10 + (c - 48)) 0)
  else none

/-- Code point of the lowercase hex digit `d` (`'0'..'9'`, `'a'..'f'`). -/
def hexDigitCode (d : Nat) : Nat := if d < 10 then 48 + d else 87 + d

/-- Decode one hex digit code point; `none` models `ValueError`. -/
def decodeHexDigit (c : Nat) : Option (Fin 16) :=
  if h : 48 ≤ c ∧ c ≤ 57 then some ⟨c - 48, by omega⟩
  else if h' : 97 ≤ c ∧ c ≤ 102 then some ⟨c - 87, by omega⟩
  else none

/-- Lowercase hex of one byte, as `bytes.hex()` renders it. -/
def byteHex (b : Byte) : Str := [hexDigitCode (b.val / 16), hexDigitCode (b.val % 16)]

/-- Python `bytes.hex()`. -/
def bytesHex (bs : List Byte) : Str := (bs.map byteHex).flatten

/-- Python `bytes.fromhex` on canonical lowercase input; `none` models the
`ValueError` on odd length or a non-hex character. -/
def hexToBytes : Str → Option (List Byte)
  | [] => some []
  | c1 :: c2 :: rest => do
    let hi ← decodeHexDigit c1
    let lo ← decodeHexDigit c2
    let bs ← hexToBytes rest
    pure (⟨hi.val * 16 + lo.val, by omega⟩ :: bs)
  | [_] => none

theorem decodeHexDigit_hexDigitCode (d : Fin 16) :
    decodeHexDigit (hexDigitCode d.val) = some d := by
  have hd := d.isLt
  by_cases h : d.val < 10
  · rw [hexDigitCode, if_pos h, decodeHexDigit, dif_pos (by omega)]
    congr 1
    apply Fin.ext
    show 48 + d.val - 48 = d.val
    omega
  · rw [hexDigitCode, if_neg h, decodeHexDigit, dif_neg (by omega), dif_pos (by omega)]
    congr 1
    apply Fin.ext
    show 87 + d.val - 87 = d.val
    omega

theorem hexToBytes_bytesHex (bs : List Byte) : hexToBytes (bytesHex bs) = some bs := by
  induction bs with
  | nil => rfl
  | cons b rest ih =>
    have hb := b.isLt
    have hhex : bytesHex (b :: rest) = byteHex b ++ bytesHex rest := by
      simp [bytesHex]
    rw [hhex]
    simp only [byteHex, List.cons_append, List.append_eq, List.nil_append, hexToBytes,
      decodeHexDigit_hexDigitCode ⟨b.val / 16, by omega⟩,
      decodeHexDigit_hexDigitCode ⟨b.val % 16, by omega⟩, ih,
      Option.pure_def, Option.bind_eq_bind, Option.some_bind, Option.some.injEq,
      List.cons.injEq, and_true]
    apply Fin.ext
    show b.val / 16 * 16 + b.val % 16 = b.val
    omega

/-- Character-class bound for hex output: every code point is a digit or a
lowercase letter `a`-`f`. -/
theorem byteHex_codes (b : Byte) (c : Nat) (h : c ∈ byteHex b) :
    (48 ≤ c ∧ c ≤ 57) ∨ (97 ≤ c ∧ c ≤ 102) := by
  have hb := b.isLt
  have h16a : b.val / 16 < 16 := by omega
  have h16b : b.val % 16 < 16 := Nat.mod_lt _ (by omega)
  simp only [byteHex, List.mem_cons, List.not_mem_nil, or_false] at h
  rcases h with h | h <;> subst h <;> unfold hexDigitCode <;> split <;> omega

theorem bytesHex_codes (bs : List Byte) (c : Nat) (h : c ∈ bytesHex bs) :
    (48 ≤ c ∧ c ≤ 57) ∨ (97 ≤ c ∧ c ≤ 102) := by
  rw [bytesHex] at h
  rcases List.mem_flatten.mp h with ⟨l, hl, hc⟩
  rcases List.mem_map.mp hl with ⟨b', _, rfl⟩
  exact byteHex_codes b' c hc

theorem natDec_codes (n : Nat) (c : Nat) (h : c ∈ natDec n) : 48 ≤ c ∧ c ≤ 57 := by
  rw [natDec_eq_digits] at h
  split at h
  · simp at h
    omega
  · rcases List.mem_map.mp h with ⟨d, hd, rfl⟩
    have : d < 10 := Nat.digits_lt_base (by norm_num) (List.mem_reverse.mp hd)
    unfold digitCode
    omega

theorem natDec_ne_nil (n : Nat) : natDec n ≠ [] := by
  rw [natDec_eq_digits]
  split
  · simp
  · simp only [ne_eq, List.map_eq_nil_iff, List.reverse_eq_nil_iff]
    exact Nat.digits_ne_nil_iff_ne_zero.mpr (by assumption)

theorem foldl_reverse_ofDigits (L : List Nat) :
    L.reverse.foldl (fun a d => a * 10 + d) 0 = Nat.ofDigits 10 L := by
  induction L with
  | nil => simp [Nat.ofDigits]
  | cons d L ih =>
    rw [List.reverse_cons, List.foldl_append, ih, Nat.ofDigits_cons]
    simp
    ring

theorem parseNat_natDec (n : Nat) : parseNat (natDec n) = some n := by
  have hall : (natDec n).all isDigitCode = true := by
    rw [List.all_eq_true]
    intro c hc
    have := natDec_codes n c hc
    simp [isDigitCode]
    omega
  unfold parseNat
  rw [if_pos ⟨natDec_ne_nil n, hall⟩]
  congr 1
  rw [natDec_eq_digits]
  split
  · simp_all
  · rw [List.foldl_map]
    have hfun2 : (fun (x : Nat) (d : Nat) => x * 10 + (digitCode d - 48)) =
        (fun x d => x * 10 + d) := by
      funext x d
      simp [digitCode]
    rw [hfun2, foldl_reverse_ofDigits, Nat.ofDigits_digits]

/-! ### Splitting on a separator (Python `str.split`) -/

/-- Python `s.split(sep)` for a single-character separator. -/
def splitOn (sep : Nat) : Str → List Str
  | [] => [[]]
  | c :: cs =>
    match splitOn sep cs with
    | [] => [[]]
    | s :: ss => if c = sep then [] :: s :: ss else (c :: s) :: ss

theorem splitOn_cons (sep c : Nat) (cs : Str) :
    splitOn sep (c :: cs) =
      match splitOn sep cs with
      | [] => [[]]
      | s :: ss => if c = sep then [] :: s :: ss else (c :: s) :: ss := rfl

theorem splitOn_ne_nil (sep : Nat) (s : Str) : splitOn sep s ≠ [] := by
  cases s with
  | nil => simp [splitOn]
  | cons c cs =>
    rw [splitOn_cons]
    rcases splitOn sep cs with _ | ⟨s, ss⟩
    · simp
    · dsimp only
      split <;> simp

theorem splitOn_no_sep (sep : Nat) (s : Str) (h : sep ∉ s) : splitOn sep s = [s] := by
  induction s with
  | nil => rfl
  | cons c cs ih =>
    have hc : c ≠ sep := fun hc => h (hc ▸ List.mem_cons_self c cs)
    have hcs : sep ∉ cs := fun hm => h (List.mem_cons_of_mem c hm)
    rw [splitOn_cons, ih hcs]
    simp [hc]

theorem splitOn_append (sep : Nat) (a rest : Str) (h : sep ∉ a) :
    splitOn sep (a ++ sep :: rest) = a :: splitOn sep rest := by
  induction a with
  | nil =>
    show splitOn sep (sep :: rest) = [] :: splitOn sep rest
    rw [splitOn_cons]
    rcases hs : splitOn sep rest with _ | ⟨s, ss⟩
    · exact absurd hs (splitOn_ne_nil sep rest)
    · simp
  | cons c cs ih =>
    have hc : c ≠ sep := fun hc => h (hc ▸ List.mem_cons_self c cs)
    have hcs : sep ∉ cs := fun hm => h (List.mem_cons_of_mem c hm)
    show splitOn sep (c :: (cs ++ sep :: rest)) = (c :: cs) :: splitOn sep rest
    rw [splitOn_cons, ih hcs]
    simp [hc]

/-! ### Transactions and blocks (`bcws/blockchain.py`)

`Transaction` and `Block` mirror the Python classes; the mutable `hash`
attribute is a field, set by `calculate_hash` (and hence by `deserialize`
and `has_difficulty`).  SHA-256 (`hashlib.sha256(...).digest()`) is the
parameter `hashFn : Str → List Byte`.
-/

/-- Field values of `blockchain.Transaction`. -/
structure Transaction where
  sender : List Byte
  receiver : List Byte
  nonce : Nat
  amount : Nat
  sig : List Byte
deriving DecidableEq, Inhabited

/-- Field values of `blockchain.Block`. -/
structure Block where
  number : Nat
  nonce : Nat
  parent_hash : List Byte
  coinbase : List Byte
  transactions : List Transaction
  hash : List Byte
deriving DecidableEq, Inhabited

/-- Comma code point. -/
def commaC : Nat := 44

/-- Colon code point. -/
def colonC : Nat := 58

/-- Embeds `Transaction.data_to_sign`: `f"{sender_hex},{receiver_hex},{nonce},{amount}"`. -/
def Transaction.data_to_sign (tx : Transaction) : Str :=
  bytesHex tx.sender ++ commaC :: bytesHex tx.receiver ++
    commaC :: natDec tx.nonce ++ commaC :: natDec tx.amount

/-- Embeds `Transaction.serialize`: `f"{data_to_sign},{sig_hex}"`.  The Python code
asserts `self.sig` is nonempty first; the claims about serialisation carry
that hypothesis. -/
def Transaction.serialize (tx : Transaction) : Str :=
  tx.data_to_sign ++ commaC :: bytesHex tx.sig

/-- Embeds `Transaction.deserialize`: split on `","` into exactly five fields;
`none` models the `ValueError` raised on malformed input. -/
def Transaction.deserialize (s : Str) : Option Transaction :=
  match splitOn commaC s with
  | [se, re, no, am, si] => do
    let sender ← hexToBytes se
    let receiver ← hexToBytes re
    let nonce ← parseNat no
    let amount ← parseNat am
    let sig ← hexToBytes si
    pure { sender, receiver, nonce, amount, sig }
  | _ => none

/-- Embeds `Transaction.hash()`: SHA-256 of the serialised form. -/
def Transaction.hashOf (hashFn : Str → List Byte) (tx : Transaction) : List Byte :=
  hashFn tx.serialize

/-- Embeds `Block.serialize`: colon-joined header fields followed by one
colon-prefixed serialised transaction each.  The `hash` field is not part
of the serialised form. -/
def Block.serialize (b : Block) : Str :=
  natDec b.number ++ colonC :: natDec b.nonce ++
    colonC :: bytesHex b.parent_hash ++ colonC :: bytesHex b.coinbase ++
    (b.transactions.map (fun tx => colonC :: tx.serialize)).flatten

/-- Embeds `Block.calculate_hash`: SHA-256 of the serialised block. -/
def Block.calculate_hash (hashFn : Str → List Byte) (b : Block) : List Byte :=
  hashFn b.serialize

/-- Embeds `Block.has_difficulty`: the (re-computed) hash's lowercase hex form
starts with `difficulty` ASCII `'0'` characters. -/
def Block.has_difficulty (hashFn : Str → List Byte) (b : Block) (difficulty : Nat) : Bool :=
  (bytesHex (b.calculate_hash hashFn)).take difficulty == List.replicate difficulty 48

/-- Deserialise the colon-separated transaction parts in order (the list
comprehension in `Block.deserialize`). -/
def deserializeTxs : List Str → Option (List Transaction)
  | [] => some []
  | p :: ps => do
    let tx ← Transaction.deserialize p
    let txs ← deserializeTxs ps
    pure (tx :: txs)

/-- Embeds `Block.deserialize`: split on `":"` into the four header fields plus
the transactions, then `calculate_hash`; `none` models `ValueError`. -/
def Block.deserialize (hashFn : Str → List Byte) (s : Str) : Option Block :=
  match splitOn colonC s with
  | nu :: no :: pa :: co :: txParts => do
    let number ← parseNat nu
    let nonce ← parseNat no
    let parent_hash ← hexToBytes pa
    let coinbase ← hexToBytes co
    let transactions ← deserializeTxs txParts
    let b : Block := { number, nonce, parent_hash, coinbase, transactions, hash := [] }
    pure { b with hash := b.calculate_hash hashFn }
  | _ => none

theorem natDec_no_comma (n : Nat) : commaC ∉ natDec n := by
  intro h
  have h2 := natDec_codes n commaC h
  simp only [commaC] at h2
  omega

theorem natDec_no_colon (n : Nat) : colonC ∉ natDec n := by
  intro h
  have h2 := natDec_codes n colonC h
  simp only [colonC] at h2
  omega

theorem bytesHex_no_comma (bs : List Byte) : commaC ∉ bytesHex bs := by
  intro h
  have h2 := bytesHex_codes bs commaC h
  simp only [commaC] at h2
  rcases h2 with h2 | h2 <;> omega

theorem bytesHex_no_colon (bs : List Byte) : colonC ∉ bytesHex bs := by
  intro h
  have h2 := bytesHex_codes bs colonC h
  simp only [colonC] at h2
  rcases h2 with h2 | h2 <;> omega

theorem tx_serialize_no_colon (tx : Transaction) : colonC ∉ tx.serialize := by
  intro h
  rw [Transaction.serialize, Transaction.data_to_sign] at h
  simp only [List.append_assoc, List.cons_append, List.mem_append, List.mem_cons] at h
  rcases h with h | h | h | h | h | h | h | h | h <;>
    first
    | exact bytesHex_no_colon _ h
    | exact natDec_no_colon _ h
    | simp [colonC, commaC] at h

theorem splitOn_tx_serialize (tx : Transaction) :
    splitOn commaC tx.serialize =
      [bytesHex tx.sender, bytesHex tx.receiver, natDec tx.nonce, natDec tx.amount,
        bytesHex tx.sig] := by
  rw [Transaction.serialize, Transaction.data_to_sign]
  simp only [List.append_assoc, List.cons_append]
  rw [splitOn_append _ _ _ (bytesHex_no_comma _),
    splitOn_append _ _ _ (bytesHex_no_comma _),
    splitOn_append _ _ _ (natDec_no_comma _),
    splitOn_append _ _ _ (natDec_no_comma _),
    splitOn_no_sep _ _ (bytesHex_no_comma _)]

/-- Serialise-then-deserialise is the identity on transactions. -/
theorem tx_deserialize_serialize (tx : Transaction) :
    Transaction.deserialize tx.serialize = some tx := by
  rw [Transaction.deserialize, splitOn_tx_serialize]
  simp [hexToBytes_bytesHex, parseNat_natDec]

theorem splitOn_block_tail (a : Str) (txs : List Transaction) (ha : colonC ∉ a) :
    splitOn colonC (a ++ (txs.map (fun tx => colonC :: tx.serialize)).flatten) =
      a :: txs.map Transaction.serialize := by
  induction txs generalizing a with
  | nil =>
    simp only [List.map_nil, List.flatten_nil, List.append_nil]
    rw [splitOn_no_sep _ _ ha]
  | cons t ts ih =>
    simp only [List.map_cons, List.flatten_cons]
    rw [show a ++ ((colonC :: t.serialize) ++ (ts.map (fun tx => colonC :: tx.serialize)).flatten) =
      a ++ colonC :: (t.serialize ++ (ts.map (fun tx => colonC :: tx.serialize)).flatten) by simp]
    rw [splitOn_append _ _ _ ha, ih t.serialize (tx_serialize_no_colon t)]

theorem deserializeTxs_map (txs : List Transaction) :
    deserializeTxs (txs.map Transaction.serialize) = some txs := by
  induction txs with
  | nil => rfl
  | cons t ts ih =>
    simp [deserializeTxs, tx_deserialize_serialize, ih]

/-- Serialise-then-deserialise on blocks reproduces every field except
that `hash` is freshly computed by `calculate_hash`. -/
theorem block_deserialize_serialize (hashFn : Str → List Byte) (b : Block) :
    Block.deserialize hashFn b.serialize =
      some { b with hash := b.calculate_hash hashFn } := by
  have hsplit : splitOn colonC b.serialize =
      natDec b.number :: natDec b.nonce :: bytesHex b.parent_hash :: bytesHex b.coinbase ::
        b.transactions.map Transaction.serialize := by
    rw [Block.serialize]
    simp only [List.append_assoc, List.cons_append]
    rw [splitOn_append _ _ _ (natDec_no_colon _),
      splitOn_append _ _ _ (natDec_no_colon _),
      splitOn_append _ _ _ (bytesHex_no_colon _),
      splitOn_block_tail _ _ (bytesHex_no_colon _)]
  rw [Block.deserialize, hsplit]
  simp only [parseNat_natDec, hexToBytes_bytesHex, deserializeTxs_map,
    Option.pure_def, Option.bind_eq_bind, Option.some_bind, Option.some.injEq]
  have hser : Block.serialize { b with hash := ([] : List Byte) } = b.serialize := rfl
  simp [Block.calculate_hash, hser]

/-! ### Blockchain state and the validator (`Blockchain` in `bcws/blockchain.py`) -/

/-- Module constant `_DIFFICULTY`. -/
def DIFFICULTY : Nat := 6

/-- Module constant `_BLOCK_REWARD`. -/
def BLOCK_REWARD : Nat := 10000

/-- Module constant `_MAX_TRANSACTIONS_PER_BLOCK`. -/
def MAX_TRANSACTIONS_PER_BLOCK : Nat := 10

/-- Field values of `blockchain.BlockchainState`: balances and nonces are
Python dicts keyed by 33-byte public keys. -/
structure BlockchainState where
  block_number : Nat
  block_hash : List Byte
  balances : List (List Byte × Nat)
  nonces : List (List Byte × Nat)
deriving DecidableEq, Inhabited

/-- Embeds `Transaction.validate_signature`: verify the signature over
`data_to_sign` under the sender public key.  `verify` stands for the
`ecdsa` black box `PublicKey.from_bytes(sender).verify`; the `assert
self.sig` guard only rules out unsigned transactions, which the claims
exclude by hypothesis. -/
def Transaction.validate_signature (verify : List Byte → Str → List Byte → Bool)
    (tx : Transaction) : Bool :=
  verify tx.sender tx.data_to_sign tx.sig

/-- Embeds `Blockchain._apply_transaction`: returns the mutated state together
with the Python return value.  Mirrors the source order: signature check,
`setdefault`s, nonce check, balance check, then debit / credit / nonce
increment. -/
def apply_transaction (verify : List Byte → Str → List Byte → Bool)
    (tx : Transaction) (state : BlockchainState) : BlockchainState × Bool :=
  if ¬ tx.validate_signature verify then (state, false)
  else
    let state := { state with
      balances := dsetdefault (dsetdefault state.balances tx.sender 0) tx.receiver 0,
      nonces := dsetdefault state.nonces tx.sender 0 }
    if dgetD state.nonces tx.sender 0 ≠ tx.nonce then (state, false)
    else if dgetD state.balances tx.sender 0 < tx.amount then (state, false)
    else
      let state := { state with
        balances := dset state.balances tx.sender
          (dgetD state.balances tx.sender 0 - tx.amount) }
      let state := { state with
        balances := dset state.balances tx.receiver
          (dgetD state.balances tx.receiver 0 + tx.amount) }
      let state := { state with
        nonces := dset state.nonces tx.sender (dgetD state.nonces tx.sender 0 + 1) }
      (state, true)

/-- The `for tx in block.transactions` loop of `apply_block`: apply in list
order, stopping at the first transaction that does not return `True`. -/
def apply_txs (verify : List Byte → Str → List Byte → Bool) :
    List Transaction → BlockchainState → BlockchainState × Bool
  | [], state => (state, true)
  | tx :: rest, state =>
    match apply_transaction verify tx state with
    | (state', true) => apply_txs verify rest state'
    | (state', false) => (state', false)

/-- Embeds `Blockchain.apply_block`: `Except.error` models the raised
`ValueError` (on the failing-transaction path the partially mutated state
is discarded with the exception, as no caller observes it). -/
def apply_block (verify : List Byte → Str → List Byte → Bool)
    (hashFn : Str → List Byte) (block : Block) (state : BlockchainState) :
    Except String BlockchainState :=
  if block.number ≠ state.block_number + 1 then .error "Block number is not correct"
  else if block.parent_hash ≠ state.block_hash then .error "Parent hash is not correct"
  else if ¬ block.has_difficulty hashFn DIFFICULTY then
    .error "Block does not meet difficulty"
  else
    match apply_txs verify block.transactions state with
    | (_, false) => .error "Invalid transaction"
    | (state, true) =>
      let state := { state with
        balances := dset state.balances block.coinbase
          (dgetD state.balances block.coinbase 0 + BLOCK_REWARD) }
      .ok { state with
        block_number := block.number,
        block_hash := block.calculate_hash hashFn }

/-! ### Test fixtures: concrete oracles and values used by closed theorems -/

/-- Signature oracle that accepts every signature. -/
def verifyAll : List Byte → Str → List Byte → Bool := fun _ _ _ => true

/-- Hash oracle mapping everything to 32 zero bytes (meets any difficulty). -/
def hashZero : Str → List Byte := fun _ => List.replicate 32 0

/-- A transaction whose nonce (1) does not match a fresh account's nonce (0). -/
def txNonce1 : Transaction :=
  { sender := [1], receiver := [2], nonce := 1, amount := 0, sig := [3] }

/-- The empty chain state with empty balance and nonce maps. -/
def stEmpty : BlockchainState :=
  { block_number := 0, block_hash := [], balances := [], nonces := [] }

/-- An empty block at height 1 on top of `stEmpty`. -/
def blk1 : Block :=
  { number := 1, nonce := 0, parent_hash := [], coinbase := [7],
    transactions := [], hash := [] }

/-- The state reached by applying `blk1` to `stEmpty` under `hashZero`. -/
def blk1State : BlockchainState :=
  { block_number := 1, block_hash := List.replicate 32 0,
    balances := [([7], 10000)], nonces := [] }

theorem apply_block_ok_iff (verify : List Byte → Str → List Byte → Bool)
    (hashFn : Str → List Byte) (block : Block) (state s' : BlockchainState) :
    apply_block verify hashFn block state = .ok s' ↔
      (block.number = state.block_number + 1 ∧
       block.parent_hash = state.block_hash ∧
       block.has_difficulty hashFn DIFFICULTY = true ∧
       (apply_txs verify block.transactions state).2 = true ∧
       s' = { block_number := block.number,
              block_hash := block.calculate_hash hashFn,
              balances := dset (apply_txs verify block.transactions state).1.balances
                block.coinbase
                (dgetD (apply_txs verify block.transactions state).1.balances
                  block.coinbase 0 + BLOCK_REWARD),
              nonces := (apply_txs verify block.transactions state).1.nonces }) := by
  unfold apply_block
  split_ifs with h1 h2 h3
  · simp only [reduceCtorEq, false_iff]
    rintro ⟨he, -⟩
    exact h1 he
  · simp only [reduceCtorEq, false_iff]
    rintro ⟨-, he, -⟩
    exact h2 he
  · have e1 : block.number = state.block_number + 1 := not_ne_iff.mp h1
    have e2 : block.parent_hash = state.block_hash := not_ne_iff.mp h2
    rcases hap : apply_txs verify block.transactions state with ⟨st1, ok⟩
    cases ok
    · simp [e1, e2, h3]
    · constructor
      · intro hok
        injection hok with hok
        exact ⟨e1, e2, h3, rfl, hok.symm⟩
      · rintro ⟨-, -, -, -, rfl⟩
        rfl
  · simp only [reduceCtorEq, false_iff]
    rintro ⟨-, -, he, -⟩
    exact h3 he

/-- C1: `apply_block(B, S)` fails (raises) unless `B.number == S.block_number
+ 1`, `B.parent_hash == S.block_hash`, `B` meets difficulty 6, and every
transaction of `B` applies successfully in order; on success the
transactions are applied in list order, then `BLOCK_REWARD = 10000` is
credited to `S.balances[B.coinbase]`, and finally `S.block_number` is set
to `B.number` and `S.block_hash` to `B.hash`. -/
theorem apply_block_success_iff (verify : List Byte → Str → List Byte → Bool)
    (hashFn : Str → List Byte) (block : Block) (state s' : BlockchainState) :
    apply_block verify hashFn block state = .ok s' ↔
      (block.number = state.block_number + 1 ∧
       block.parent_hash = state.block_hash ∧
       block.has_difficulty hashFn DIFFICULTY = true ∧
       (apply_txs verify block.transactions state).2 = true ∧
       s' = { block_number := block.number,
              block_hash := block.calculate_hash hashFn,
              balances := dset (apply_txs verify block.transactions state).1.balances
                block.coinbase
                (dgetD (apply_txs verify block.transactions state).1.balances
                  block.coinbase 0 + BLOCK_REWARD),
              nonces := (apply_txs verify block.transactions state).1.nonces }) :=
  apply_block_ok_iff verify hashFn block state s'

/-- Witness for C1 at a concrete block and state. -/
theorem apply_block_success_iff_witness :
    apply_block verifyAll hashZero blk1 stEmpty = .ok blk1State :=
  (apply_block_success_iff verifyAll hashZero blk1 stEmpty blk1State).mpr (by decide)

/-- C2 counterexample: a transaction with a wrong nonce (and a fresh
sender) is rejected, yet the attempt changes the balances map — the
`setdefault` calls run before the nonce check and insert explicit
zero-valued entries. -/
theorem apply_transaction_rejected_mutates :
    (apply_transaction verifyAll txNonce1 stEmpty).2 = false ∧
    (apply_transaction verifyAll txNonce1 stEmpty).1.balances ≠ stEmpty.balances ∧
    (apply_transaction verifyAll txNonce1 stEmpty).1.nonces ≠ stEmpty.nonces := by
  decide

/-- C2 (amended): a rejected transaction leaves every address's balance
and nonce value (reads defaulting absent keys to 0) unchanged, though the
maps may gain explicit zero entries for `tx.sender` and `tx.receiver`;
when the rejection is a signature failure the state is entirely
untouched. -/
theorem apply_transaction_rejected_preserves_values
    (verify : List Byte → Str → List Byte → Bool) (tx : Transaction)
    (state : BlockchainState)
    (h : (apply_transaction verify tx state).2 = false) :
    (∀ a, dgetD (apply_transaction verify tx state).1.balances a 0 =
            dgetD state.balances a 0 ∧
          dgetD (apply_transaction verify tx state).1.nonces a 0 =
            dgetD state.nonces a 0) ∧
    (tx.validate_signature verify = false →
      (apply_transaction verify tx state).1 = state) := by
  by_cases hs : tx.validate_signature verify = true
  · constructor
    · intro a
      simp only [apply_transaction, hs, not_true_eq_false, if_false] at h ⊢
      split_ifs at h ⊢ with h1 h2
      · simp [dgetD_dsetdefault]
      · simp [dgetD_dsetdefault]
    · intro hfalse
      rw [hs] at hfalse
      exact absurd hfalse (by simp)
  · have hs' : tx.validate_signature verify = false := by
      revert hs
      cases tx.validate_signature verify <;> simp
    constructor
    · intro a
      simp [apply_transaction, hs']
    · intro _
      simp [apply_transaction, hs']

/-- Witness for the amended C2 theorem at a concrete rejected transaction. -/
theorem apply_transaction_rejected_preserves_values_witness :
    (apply_transaction verifyAll txNonce1 stEmpty).2 = false ∧
    ((∀ a, dgetD (apply_transaction verifyAll txNonce1 stEmpty).1.balances a 0 =
            dgetD stEmpty.balances a 0 ∧
          dgetD (apply_transaction verifyAll txNonce1 stEmpty).1.nonces a 0 =
            dgetD stEmpty.nonces a 0) ∧
     (Transaction.validate_signature verifyAll txNonce1 = false →
       (apply_transaction verifyAll txNonce1 stEmpty).1 = stEmpty)) :=
  ⟨by decide, apply_transaction_rejected_preserves_values verifyAll txNonce1 stEmpty
    (by decide)⟩

/-- A block fixture carrying one signed transaction. -/
def blkW : Block :=
  { number := 2, nonce := 5, parent_hash := [0, 1], coinbase := [9],
    transactions := [txNonce1], hash := [] }

/-- C5: for every block and every signed transaction `X`,
`serialise(deserialise(serialise(X))) == serialise(X)`. -/
theorem serialize_deserialize_serialize (hashFn : Str → List Byte)
    (b : Block) (tx : Transaction) (htx : tx.sig ≠ [])
    (hb : ∀ t ∈ b.transactions, t.sig ≠ []) :
    (∃ tx', Transaction.deserialize tx.serialize = some tx' ∧
       tx'.serialize = tx.serialize) ∧
    (∃ b', Block.deserialize hashFn b.serialize = some b' ∧
       b'.serialize = b.serialize) :=
  ⟨⟨tx, tx_deserialize_serialize tx, rfl⟩,
   ⟨_, block_deserialize_serialize hashFn b, rfl⟩⟩

/-- Witness for C5 at a concrete signed transaction and block. -/
theorem serialize_deserialize_serialize_witness :
    (txNonce1.sig ≠ [] ∧ ∀ t ∈ blkW.transactions, t.sig ≠ []) ∧
    ((∃ tx', Transaction.deserialize txNonce1.serialize = some tx' ∧
        tx'.serialize = txNonce1.serialize) ∧
     (∃ b', Block.deserialize hashZero blkW.serialize = some b' ∧
        b'.serialize = blkW.serialize)) :=
  ⟨by decide,
   serialize_deserialize_serialize hashZero blkW txNonce1 (by decide) (by decide)⟩

/-! ### Mempool (`Mempool` in `bcws/blockchain.py`)

Only the cleanup loop matters for the claims.  The loop body reads
`now = time.time()` once, before `while True`, so every sweep — whatever
its wall-clock time — compares `last_seen + 60` against the loop's start
time.
-/

/-- Field values of `Mempool` (the gossip handle carries no state we need). -/
structure MempoolState where
  transactions : List (List Byte × Transaction)
  last_seen : List (List Byte × Nat)
deriving DecidableEq, Inhabited

/-- Embeds `Mempool.evict_transaction`. -/
def evict_transaction (hashFn : Str → List Byte) (st : MempoolState)
    (tx : Transaction) : MempoolState :=
  { transactions := dpop st.transactions (tx.hashOf hashFn),
    last_seen := dpop st.last_seen (tx.hashOf hashFn) }

/-- One pass of the `for tx in self.get_transactions()` body of
`Mempool._cleanup_loop`, comparing against the time value `now₀` captured
when the loop started. -/
def mempool_cleanup_pass (hashFn : Str → List Byte) (now₀ : Nat)
    (st : MempoolState) : MempoolState :=
  (dvalues st.transactions).foldl
    (fun acc tx =>
      if dgetD acc.last_seen (tx.hashOf hashFn) 0 + 60 < now₀ then
        evict_transaction hashFn acc tx
      else acc)
    st

/-- The `k`-th sweep of `Mempool._cleanup_loop`.  The loop sleeps 10 s
between passes, so this sweep runs at wall-clock time `startTime + 10 * k`
— but the code computes `now = time.time()` once before `while True`, so
the comparison uses `startTime`, not the sweep time. -/
def mempool_cleanup_sweep (hashFn : Str → List Byte) (startTime : Nat)
    (k : Nat) (st : MempoolState) : MempoolState :=
  mempool_cleanup_pass hashFn startTime st

/-- A mempool holding one transaction last seen at time 100. -/
def mpStale : MempoolState :=
  { transactions := [(hashZero txNonce1.serialize, txNonce1)],
    last_seen := [(hashZero txNonce1.serialize, 100)] }

/-- C4 (code bug): the sweep running at wall-clock time `0 + 10 * 100 =
1000` retains a transaction last seen at time 100, although it is 900
seconds stale — the loop compares against its start time 0, under which
`100 + 60 < 0` is false.  The claim requires eviction of everything whose
last-seen time lies more than 60 seconds before the sweep. -/
theorem mempool_sweep_misses_stale_transaction :
    mempool_cleanup_sweep hashZero 0 100 mpStale = mpStale ∧
    dgetD mpStale.last_seen (Transaction.hashOf hashZero txNonce1) 0 + 60 <
      0 + 10 * 100 := by
  constructor
  · rfl
  · decide

/-! ### Distributed search (`Search` in `bcws/search.py`)

For the timeout claim only the pending-query map (query id ↦ expiry) and
the timeout deliveries matter.  `Search.start` calls
`run_in_background(self._cleanup_loop)`, which executes `_cleanup_loop`
once in a daemon thread — and `_cleanup_loop`'s body is a single `for`
pass over the queries with no enclosing `while` loop, so the service
sweeps for expired queries exactly once, at start time.  `_handle_response`
passes a received (non-null) result to the handler; only the cleanup pass
ever invokes a handler with the null timeout signal.
-/

/-- One execution of the body of `Search._cleanup_loop` at time `now`:
pop every expired entry and invoke its handler with null.  The returned
list records the query ids whose handlers received the null signal. -/
def search_cleanup_pass (queries : List (Nat × Nat)) (now : Nat) :
    List (Nat × Nat) × List Nat :=
  queries.foldl
    (fun acc kv => if kv.2 < now then (dpop acc.1 kv.1, acc.2 ++ [kv.1]) else acc)
    (queries, [])

/-- Lifecycle events of the search service relevant to timeout delivery. -/
inductive SEvent where
  | start (now : Nat)
  | search_for (qid : Nat) (timeout : Nat) (now : Nat)
deriving DecidableEq

/-- Run the search service over its lifecycle: `start` runs the cleanup
body once (no loop in `_cleanup_loop`); `search_for` stores
`(expiry, handler)` under a fresh query id.  The second component collects
every query id whose handler was invoked with the null timeout result. -/
def search_run : List (Nat × Nat) → List SEvent → List (Nat × Nat) × List Nat
  | q, [] => (q, [])
  | q, .start now :: rest =>
    let p := search_cleanup_pass q now
    let r := search_run p.1 rest
    (r.1, p.2 ++ r.2)
  | q, .search_for qid tmo now :: rest =>
    search_run (dset q qid (now + tmo)) rest

theorem search_run_only_registrations (q : List (Nat × Nat))
    (regs : List (Nat × Nat × Nat)) :
    (search_run q (regs.map (fun r => SEvent.search_for r.1 r.2.1 r.2.2))).2 = [] := by
  induction regs generalizing q with
  | nil => rfl
  | cons r rs ih => exact ih (dset q r.1 (r.2.2 + r.2.1))

/-- C3 (code bug): a node starts its search service at time `t0` (the one
and only cleanup pass, over a then-empty query map) and afterwards issues
any number of `search_for` queries; no handler is ever invoked with the
null timeout result, no matter how far past each query's expiry the
node lives — `_cleanup_loop` has no `while` loop, so the sweep never runs
again.  The claim instead requires exactly one null invocation per expired
query regardless of when the query was issued. -/
theorem search_timeout_never_delivered_after_start (t0 : Nat)
    (regs : List (Nat × Nat × Nat)) :
    (search_run []
      (SEvent.start t0 :: regs.map (fun r => SEvent.search_for r.1 r.2.1 r.2.2))).2
      = [] := by
  show (let p := search_cleanup_pass [] t0
        let r := search_run p.1 (regs.map (fun r => SEvent.search_for r.1 r.2.1 r.2.2))
        (r.1, p.2 ++ r.2)).2 = []
  simp [search_cleanup_pass, search_run_only_registrations]

/-! ### Gossip (`Gossip` in `bcws/gossip.py`)

A gossip message is modelled by its kind and its dedup identifier (the
SHA-256 hex of its raw JSON form, computed in `GossipMessage.__init__`);
two wire messages are the same gossip message iff their identifiers are
equal.  Handler invocation is reported as a flag; the handler registry is
the list of registered kinds.
-/

/-- A gossip message: dispatch kind and dedup identifier. -/
structure GMsg where
  kind : Nat
  ident : Nat
deriving DecidableEq

/-- State of the `Gossip` engine: registered kinds, `_known_messages`, and
`_message_timeout`. -/
structure GossipState where
  handlers : List Nat
  known_messages : List (Nat × GMsg)
  message_timeout : List (Nat × Nat)
deriving DecidableEq

/-- Embeds `Gossip.broadcast`: record the message as known with expiry `now + 30`
(the network send has no local effect). -/
def gossip_broadcast (st : GossipState) (m : GMsg) (now : Nat) : GossipState :=
  { st with
    known_messages := dset st.known_messages m.ident m,
    message_timeout := dset st.message_timeout m.ident (now + 30) }

/-- Embeds `Gossip._handle_send`: drop if the identifier is known; otherwise
invoke the registered handler (if any) and re-broadcast.  The flag records
whether the handler for the message's kind was invoked. -/
def gossip_handle_send (st : GossipState) (m : GMsg) (now : Nat) :
    GossipState × Bool :=
  if (dlookup st.known_messages m.ident).isSome then (st, false)
  else (gossip_broadcast st m now, m.kind ∈ st.handlers)

/-- Embeds `Gossip._cleanup_loop`, one sweep at time `now`: delete every entry
whose timeout has passed from both maps. -/
def gossip_cleanup_sweep (st : GossipState) (now : Nat) : GossipState :=
  st.message_timeout.foldl
    (fun acc kv =>
      if kv.2 < now then
        { acc with
          known_messages := dpop acc.known_messages kv.1,
          message_timeout := dpop acc.message_timeout kv.1 }
      else acc)
    st

/-- Events at a gossip node: receipt of a wire message, or one sweep of
the cleanup loop. -/
inductive GEvent where
  | recv (m : GMsg) (now : Nat)
  | sweep (now : Nat)
deriving DecidableEq

/-- Is the event a cleanup sweep? -/
def GEvent.is_sweep : GEvent → Bool
  | .sweep _ => true
  | _ => false

/-- Number of handler invocations for messages with identifier `i` along a
trace of events (receipts and cleanup sweeps). -/
def gossip_invocations (st : GossipState) (es : List GEvent) (i : Nat) : Nat :=
  match es with
  | [] => 0
  | .sweep now :: rest => gossip_invocations (gossip_cleanup_sweep st now) rest i
  | .recv m now :: rest =>
    (if (gossip_handle_send st m now).2 && (m.ident == i) then 1 else 0) +
      gossip_invocations (gossip_handle_send st m now).1 rest i

/-- A gossip node with one registered kind and nothing known yet. -/
def gsFresh : GossipState :=
  { handlers := [0], known_messages := [], message_timeout := [] }

/-- A message of the registered kind. -/
def gmsg7 : GMsg := { kind := 0, ident := 7 }

/-- C6 counterexample: the same gossip identifier is handled twice — it is
received at time 0 (expiry 30), the cleanup sweep at time 31 removes the
dedup entry, and a re-receipt at time 40 invokes the handler again. -/
theorem gossip_handler_invoked_twice :
    gossip_invocations gsFresh
      [GEvent.recv gmsg7 0, GEvent.sweep 31, GEvent.recv gmsg7 40] 7 = 2 := by
  decide

theorem gossip_known_preserved_by_recv (st : GossipState) (m : GMsg) (now : Nat)
    (i : Nat) (h : (dlookup st.known_messages i).isSome) :
    (dlookup (gossip_handle_send st m now).1.known_messages i).isSome := by
  unfold gossip_handle_send
  split_ifs with h1
  · exact h
  · exact dlookup_isSome_of_mem_dset _ _ _ _ h

theorem gossip_not_handled_of_known (st : GossipState) (m : GMsg) (now : Nat)
    (h : (dlookup st.known_messages m.ident).isSome) :
    gossip_handle_send st m now = (st, false) := by
  unfold gossip_handle_send
  rw [if_pos h]

theorem gossip_known_after_handled (st : GossipState) (m : GMsg) (now : Nat)
    (h : (gossip_handle_send st m now).2 = true) :
    (dlookup (gossip_handle_send st m now).1.known_messages m.ident).isSome := by
  unfold gossip_handle_send at h ⊢
  by_cases h1 : (dlookup st.known_messages m.ident).isSome
  · rw [if_pos h1] at h ⊢
    exact h1
  · rw [if_neg h1] at h ⊢
    show (dlookup (gossip_broadcast st m now).known_messages m.ident).isSome = true
    simp [gossip_broadcast, dlookup_dset_self]

theorem gossip_invocations_zero_of_known (st : GossipState) (es : List GEvent)
    (i : Nat) (hns : es.all (fun e => ¬ e.is_sweep))
    (h : (dlookup st.known_messages i).isSome) :
    gossip_invocations st es i = 0 := by
  induction es generalizing st with
  | nil => rfl
  | cons e rest ih =>
    cases e with
    | sweep now => simp [GEvent.is_sweep] at hns
    | recv m now =>
      have hns' : rest.all (fun e => ¬ e.is_sweep) := by
        simp only [List.all_cons, Bool.and_eq_true] at hns
        exact hns.2
      have htail : gossip_invocations (gossip_handle_send st m now).1 rest i = 0 :=
        ih _ hns' (gossip_known_preserved_by_recv st m now _ h)
      unfold gossip_invocations
      rw [htail]
      by_cases hm : m.ident = i
      · rw [gossip_not_handled_of_known st m now (hm ▸ h)]
        simp
      · simp [hm]

/-- C6 (amended): per distinct gossip identifier the handler is invoked at
most once as long as no cleanup sweep runs — a re-received message whose
identifier is still in `known_messages` is dropped silently.  Once a sweep
removes the expired entry (30 s after first observation) a re-received
message with the same identifier is handled again, as the counterexample
shows. -/
theorem gossip_at_most_once_between_sweeps (st : GossipState) (es : List GEvent)
    (i : Nat) (hns : es.all (fun e => ¬ e.is_sweep) = true) :
    gossip_invocations st es i ≤ 1 := by
  induction es generalizing st with
  | nil => simp [gossip_invocations]
  | cons e rest ih =>
    cases e with
    | sweep now => simp [GEvent.is_sweep] at hns
    | recv m now =>
      have hns' : rest.all (fun e => ¬ e.is_sweep) := by
        simp only [List.all_cons, Bool.and_eq_true] at hns
        exact hns.2
      unfold gossip_invocations
      by_cases hm : m.ident = i
      · rcases hinv : (gossip_handle_send st m now).2 with _ | _
        · simpa using ih _ hns'
        · have hk : (dlookup (gossip_handle_send st m now).1.known_messages i).isSome :=
            hm ▸ gossip_known_after_handled st m now hinv
          have h0 := gossip_invocations_zero_of_known _ rest i hns' hk
          rw [h0, hm]
          simp
      · have hm' : (m.ident == i) = false := by
          simp [hm]
        rw [hm']
        simpa using ih _ hns'

/-- Witness for the amended C6 theorem on a concrete sweep-free trace. -/
theorem gossip_at_most_once_between_sweeps_witness :
    ([GEvent.recv gmsg7 0, GEvent.recv gmsg7 5,
        GEvent.recv gmsg7 20].all (fun e => ¬ e.is_sweep) = true) ∧
    gossip_invocations gsFresh
      [GEvent.recv gmsg7 0, GEvent.recv gmsg7 5, GEvent.recv gmsg7 20] 7 ≤ 1 :=
  ⟨by decide,
   gossip_at_most_once_between_sweeps gsFresh
     [GEvent.recv gmsg7 0, GEvent.recv gmsg7 5, GEvent.recv gmsg7 20] 7 (by decide)⟩

/-! ### Peering overlay (`P2PNetwork` in `bcws/peering.py`)

Peer identifiers (the strings `"p2p:<16 hex>"`) are modelled as atoms.
`random.choice(list(self.peers.keys()))` draws uniformly from the key
list; the draw is modelled by an index `r` into that list (`r % length`),
supplied per call.  `announce_to` only sends messages and has no effect on
the peer table.
-/

/-- A peer record (`P2PPeer`): identifier plus endpoint atom. -/
structure Peer where
  ident : Nat
  addr : Nat
deriving DecidableEq

/-- State of `P2PNetwork`: own id, `peer_limit`, `peers`, `last_seen`. -/
structure P2PState where
  my_id : Nat
  peer_limit : Nat
  peers : List (Nat × Peer)
  last_seen : List (Nat × Nat)
deriving DecidableEq

/-- Embeds `P2PNetwork.add_peer` at time `now` with random draw `r`: return
unchanged if the id is already present or is our own; otherwise insert
into `peers` and `last_seen`, and if the table now exceeds `peer_limit`,
delete the peer at index `r % size` of the key list (the uniform
`random.choice` over all current keys, the new entry included);
`last_seen` is not touched by the eviction. -/
def add_peer (st : P2PState) (peer : Peer) (now : Nat) (r : Nat) : P2PState :=
  if (dlookup st.peers peer.ident).isSome then st
  else if peer.ident = st.my_id then st
  else if (dset st.peers peer.ident peer).length > st.peer_limit then
    { st with
      peers := dpop (dset st.peers peer.ident peer)
        ((dkeys (dset st.peers peer.ident peer)).getD
          (r % (dset st.peers peer.ident peer).length) peer.ident),
      last_seen := dset st.last_seen peer.ident now }
  else
    { st with
      peers := dset st.peers peer.ident peer,
      last_seen := dset st.last_seen peer.ident now }

/-- Fold a sequence of `add_peer` calls (announces and received peer
lists) over the network state. -/
def add_peers : P2PState → List (Peer × Nat × Nat) → P2PState
  | st, [] => st
  | st, op :: ops => add_peers (add_peer st op.1 op.2.1 op.2.2) ops

theorem add_peer_my_id (st : P2PState) (p : Peer) (now r : Nat) :
    (add_peer st p now r).my_id = st.my_id := by
  unfold add_peer
  split_ifs <;> rfl

theorem add_peer_peer_limit (st : P2PState) (p : Peer) (now r : Nat) :
    (add_peer st p now r).peer_limit = st.peer_limit := by
  unfold add_peer
  split_ifs <;> rfl

theorem dkeys_dset_absent {α β : Type} [DecidableEq α] (d : List (α × β)) (k : α) (v : β)
    (h : dlookup d k = none) : dkeys (dset d k v) = dkeys d ++ [k] := by
  rw [dset_of_absent d k v h]
  simp [dkeys]

theorem dlookup_none_of_isSome_false {α β : Type} [DecidableEq α] (d : List (α × β)) (k : α)
    (h : ¬ (dlookup d k).isSome) : dlookup d k = none := by
  cases hd : dlookup d k
  · rfl
  · rw [hd] at h
    simp at h

theorem dkeys_length {α β : Type} (d : List (α × β)) : (dkeys d).length = d.length := by
  simp [dkeys]

theorem victim_mem (d : List (Nat × Peer)) (r : Nat) (dflt : Nat) (hd : d.length ≠ 0) :
    (dkeys d).getD (r % d.length) dflt ∈ dkeys d := by
  have hlt : r % d.length < (dkeys d).length := by
    rw [dkeys_length]
    exact Nat.mod_lt _ (by omega)
  rw [List.getD_eq_getElem (dkeys d) dflt hlt]
  exact List.getElem_mem hlt

theorem add_peer_length (st : P2PState) (p : Peer) (now r : Nat)
    (h : st.peers.length ≤ st.peer_limit) :
    (add_peer st p now r).peers.length ≤ st.peer_limit := by
  unfold add_peer
  split_ifs with h1 h2 h3
  · exact h
  · exact h
  · -- overflow: the victim is a member of the enlarged key list
    have hn := dlookup_none_of_isSome_false _ _ h1
    have hlen : (dset st.peers p.ident p).length = st.peers.length + 1 := by
      rw [dset_of_absent _ _ _ hn]
      simp
    have hmem := victim_mem (dset st.peers p.ident p) r p.ident (by omega)
    have hpop := dpop_length (dset st.peers p.ident p) _ hmem
    show (dpop (dset st.peers p.ident p) _).length ≤ st.peer_limit
    omega
  · -- no overflow
    show (dset st.peers p.ident p).length ≤ st.peer_limit
    omega

theorem add_peer_not_self (st : P2PState) (p : Peer) (now r : Nat)
    (h : st.my_id ∉ dkeys st.peers) :
    st.my_id ∉ dkeys (add_peer st p now r).peers := by
  unfold add_peer
  split_ifs with h1 h2 h3
  · exact h
  · exact h
  · intro hmem
    have hsub := dkeys_dpop_subset _ _ _ hmem
    rw [dkeys_dset_absent _ _ _ (dlookup_none_of_isSome_false _ _ h1)] at hsub
    rcases List.mem_append.mp hsub with hx | hx
    · exact h hx
    · simp only [List.mem_singleton] at hx
      exact h2 hx.symm
  · intro hmem
    have hmem' : st.my_id ∈ dkeys (dset st.peers p.ident p) := hmem
    rw [dkeys_dset_absent _ _ _ (dlookup_none_of_isSome_false _ _ h1)] at hmem'
    rcases List.mem_append.mp hmem' with hx | hx
    · exact h hx
    · simp only [List.mem_singleton] at hx
      exact h2 hx.symm

theorem add_peers_length (st : P2PState) (ops : List (Peer × Nat × Nat))
    (h : st.peers.length ≤ st.peer_limit) :
    (add_peers st ops).peers.length ≤ st.peer_limit := by
  induction ops generalizing st with
  | nil => exact h
  | cons o os ih =>
    show (add_peers (add_peer st o.1 o.2.1 o.2.2) os).peers.length ≤ st.peer_limit
    have h2 := ih (add_peer st o.1 o.2.1 o.2.2)
      (by rw [add_peer_peer_limit]; exact add_peer_length st o.1 o.2.1 o.2.2 h)
    rwa [add_peer_peer_limit] at h2

theorem add_peers_not_self (st : P2PState) (ops : List (Peer × Nat × Nat))
    (h : st.my_id ∉ dkeys st.peers) :
    st.my_id ∉ dkeys (add_peers st ops).peers := by
  induction ops generalizing st with
  | nil => exact h
  | cons o os ih =>
    show st.my_id ∉ dkeys (add_peers (add_peer st o.1 o.2.1 o.2.2) os).peers
    have h2 := ih (add_peer st o.1 o.2.1 o.2.2)
      (by rw [add_peer_my_id]; exact add_peer_not_self st o.1 o.2.1 o.2.2 h)
    rwa [add_peer_my_id] at h2

/-- C7: after any sequence of `add_peer` calls the table holds at most
`peer_limit` entries; the self identifier is never inserted; a present
identifier is not re-inserted (the call is a no-op); and on overflow
exactly one victim, drawn by the random index from the full key list, is
evicted, restoring the size to `peer_limit`. -/
theorem add_peer_table_claims :
    (∀ (st : P2PState) (ops : List (Peer × Nat × Nat)),
       st.peers.length ≤ st.peer_limit →
       (add_peers st ops).peers.length ≤ st.peer_limit) ∧
    (∀ (st : P2PState) (ops : List (Peer × Nat × Nat)),
       st.my_id ∉ dkeys st.peers →
       st.my_id ∉ dkeys (add_peers st ops).peers) ∧
    (∀ (st : P2PState) (p : Peer) (now r : Nat),
       (dlookup st.peers p.ident).isSome → add_peer st p now r = st) ∧
    (∀ (st : P2PState) (p : Peer) (now r : Nat),
       dlookup st.peers p.ident = none → p.ident ≠ st.my_id →
       st.peers.length = st.peer_limit →
       ∃ v ∈ dkeys (dset st.peers p.ident p),
         (add_peer st p now r).peers = dpop (dset st.peers p.ident p) v ∧
         (add_peer st p now r).peers.length = st.peer_limit) := by
  refine ⟨add_peers_length, add_peers_not_self, ?_, ?_⟩
  · intro st p now r h
    unfold add_peer
    rw [if_pos h]
  · intro st p now r h1 h2 h3
    have hlen : (dset st.peers p.ident p).length = st.peer_limit + 1 := by
      rw [dset_of_absent _ _ _ h1]
      simp [h3]
    refine ⟨(dkeys (dset st.peers p.ident p)).getD
      (r % (dset st.peers p.ident p).length) p.ident,
      victim_mem _ _ _ (by omega), ?_, ?_⟩
    · unfold add_peer
      rw [if_neg (by simp [h1]), if_neg h2, if_pos (by omega)]
    · unfold add_peer
      rw [if_neg (by simp [h1]), if_neg h2, if_pos (by omega)]
      show (dpop (dset st.peers p.ident p) _).length = st.peer_limit
      have hmem := victim_mem (dset st.peers p.ident p) r p.ident (by omega)
      have := dpop_length (dset st.peers p.ident p) _ hmem
      omega

/-- Peers and states used by the peering witnesses. -/
def peerA : Peer := { ident := 1, addr := 11 }

def peerB : Peer := { ident := 2, addr := 12 }

def peerC : Peer := { ident := 3, addr := 13 }

/-- A fresh node with peer limit 2. -/
def p2pSt0 : P2PState := { my_id := 0, peer_limit := 2, peers := [], last_seen := [] }

/-- A node whose table is at its limit. -/
def p2pFull : P2PState :=
  { my_id := 0, peer_limit := 2, peers := [(1, peerA), (2, peerB)],
    last_seen := [(1, 10), (2, 20)] }

/-- Witness for C7: a concrete announce sequence (three peers plus a
repeat, at limit 2) keeps the table at ≤ 2, and a repeated announce is a
no-op. -/
theorem add_peer_table_claims_witness :
    (add_peers p2pSt0
      [(peerA, 1, 0), (peerB, 2, 0), (peerC, 3, 1), (peerB, 4, 0)]).peers.length ≤
        p2pSt0.peer_limit ∧
    add_peer p2pFull peerB 9 0 = p2pFull :=
  ⟨add_peer_table_claims.1 p2pSt0
      [(peerA, 1, 0), (peerB, 2, 0), (peerC, 3, 1), (peerB, 4, 0)] (by decide),
   add_peer_table_claims.2.2.1 p2pFull peerB 9 0 (by decide)⟩

theorem getD_concat_length {α : Type} (l : List α) (x d : α) :
    (l ++ [x]).getD l.length d = x := by
  have hlt : l.length < (l ++ [x]).length := by simp
  rw [List.getD_eq_getElem _ d hlt]
  exact List.getElem_concat_length l x l.length rfl hlt

/-- C10: when `add_peer` inserts a fresh peer into a table already holding
`peer_limit` entries, the eviction victim is drawn from all
`peer_limit + 1` current entries, the new peer included; a draw hitting
the new peer evicts it immediately, leaving the table's membership exactly
as before the announce, while its `last_seen` entry remains. -/
theorem add_peer_can_evict_new_peer (st : P2PState) (p : Peer) (now r : Nat)
    (h1 : dlookup st.peers p.ident = none)
    (h2 : p.ident ≠ st.my_id)
    (h3 : st.peers.length = st.peer_limit)
    (h4 : r = st.peer_limit) :
    (dkeys (dset st.peers p.ident p)).length = st.peer_limit + 1 ∧
    p.ident ∈ dkeys (dset st.peers p.ident p) ∧
    (add_peer st p now r).peers = st.peers ∧
    dlookup (add_peer st p now r).last_seen p.ident = some now := by
  have hset := dset_of_absent st.peers p.ident p h1
  have hlen : (dset st.peers p.ident p).length = st.peer_limit + 1 := by
    rw [hset]
    simp [h3]
  have hkeys : dkeys (dset st.peers p.ident p) = dkeys st.peers ++ [p.ident] :=
    dkeys_dset_absent _ _ _ h1
  have hklen : (dkeys st.peers).length = st.peer_limit := by
    rw [dkeys_length, h3]
  have hvictim : (dkeys (dset st.peers p.ident p)).getD
      (r % (dset st.peers p.ident p).length) p.ident = p.ident := by
    rw [hkeys, hlen, h4, Nat.mod_eq_of_lt (by omega), ← hklen]
    exact getD_concat_length _ _ _
  refine ⟨by rw [hkeys]; simp [hklen], by rw [hkeys]; simp, ?_, ?_⟩
  · unfold add_peer
    rw [if_neg (by simp [h1]), if_neg h2, if_pos (by omega)]
    show dpop (dset st.peers p.ident p) _ = st.peers
    rw [hvictim, hset, dpop_append_fresh _ _ _ h1]
  · unfold add_peer
    rw [if_neg (by simp [h1]), if_neg h2, if_pos (by omega)]
    exact dlookup_dset_self _ _ _

/-- Witness for C10: at the full table, draw index 2 selects the freshly
inserted peer, which is evicted again; its `last_seen` entry stays. -/
theorem add_peer_can_evict_new_peer_witness :
    (dkeys (dset p2pFull.peers peerC.ident peerC)).length = p2pFull.peer_limit + 1 ∧
    peerC.ident ∈ dkeys (dset p2pFull.peers peerC.ident peerC) ∧
    (add_peer p2pFull peerC 30 2).peers = p2pFull.peers ∧
    dlookup (add_peer p2pFull peerC 30 2).last_seen peerC.ident = some 30 :=
  add_peer_can_evict_new_peer p2pFull peerC 30 2 (by decide) (by decide) (by decide)
    (by decide)

/-! ### Fork manager (`ForkManager` in `bcws/blockchain.py`)

Blocks walk their parent chains, so the loops take fuel; `none` models a
raised exception (missing parent / undeserialisable data) or exhausted
fuel.  The `search_for` call of `_add_block_and_ancestors` registers a
closure capturing `cur_block` (the missing-parent frontier) and `block`;
the closure's captured data is reified as `SearchReq`.
-/

/-- State of `ForkManager`: candidate blocks, confirmed hashes, candidate
tip, and the shared `block` storage namespace (key = hash hex, value =
serialised block). -/
structure ForkState where
  known_blocks : List (List Byte × Block)
  confirmed_blocks : List (List Byte)
  highest_block : Option Block
  block_storage : List (Str × Str)
deriving DecidableEq, Inhabited

/-- Embeds `ForkManager._prevalidate_block`: stored hash matches and (recomputed)
difficulty holds. -/
def prevalidate_block (hashFn : Str → List Byte) (h : List Byte) (b : Block) : Bool :=
  b.hash == h && b.has_difficulty hashFn DIFFICULTY

/-- Embeds `ForkManager._is_confirmed_block`. -/
def is_confirmed_block (st : ForkState) (h : List Byte) : Bool :=
  h ∈ st.confirmed_blocks || (dlookup st.block_storage (bytesHex h)).isSome

/-- Embeds `ForkManager._is_known_block`. -/
def is_known_block (st : ForkState) (h : List Byte) : Bool :=
  (dlookup st.known_blocks h).isSome || is_confirmed_block st h

/-- Embeds `ForkManager._get_known_block`: memory first, then storage (a stored
blob that fails to deserialise raises, modelled by `none`). -/
def get_known_block (hashFn : Str → List Byte) (st : ForkState) (h : List Byte) :
    Option Block :=
  match dlookup st.known_blocks h with
  | some b => some b
  | none =>
    match dlookup st.block_storage (bytesHex h) with
    | none => none
    | some data => Block.deserialize hashFn data

/-- Embeds `ForkManager.get_parent` (`none` also covers the raised `ValueError`
when the parent is nowhere to be found). -/
def get_parent (hashFn : Str → List Byte) (st : ForkState) (b : Block) : Option Block :=
  get_known_block hashFn st b.parent_hash

/-- Embeds `ForkManager._add_block`. -/
def fork_add_block (st : ForkState) (b : Block) : ForkState :=
  { st with known_blocks := dset st.known_blocks b.hash b }

/-- Embeds `ForkManager._confirm_block`: record the hash in the confirmed set and
persist the serialised block. -/
def confirm_block (st : ForkState) (b : Block) : ForkState :=
  { st with
    confirmed_blocks :=
      if b.hash ∈ st.confirmed_blocks then st.confirmed_blocks
      else st.confirmed_blocks ++ [b.hash],
    block_storage := dset st.block_storage (bytesHex b.hash) b.serialize }

/-- Embeds `ForkManager._update_chain_tip`. -/
def update_chain_tip (st : ForkState) (b : Block) : ForkState :=
  match st.highest_block with
  | none => { st with highest_block := some b }
  | some hb => if b.number > hb.number then { st with highest_block := some b } else st

/-- The `while True` loop of `_confirm_block_and_ancestors`: confirm from
`cur` down to the first already-confirmed ancestor or height 0. -/
def confirm_loop (hashFn : Str → List Byte) : Nat → ForkState → Block → Option ForkState
  | 0, _, _ => none
  | fuel + 1, st, cur =>
    if is_confirmed_block st cur.hash then some st
    else
      let st' := confirm_block st cur
      if cur.number = 0 then some st'
      else
        match get_parent hashFn st' cur with
        | none => none
        | some p => confirm_loop hashFn fuel st' p

/-- Embeds `ForkManager._confirm_block_and_ancestors`: run the confirm loop, then
update the chain tip with the original block. -/
def confirm_block_and_ancestors (hashFn : Str → List Byte) (fuel : Nat)
    (st : ForkState) (b : Block) : Option ForkState :=
  (confirm_loop hashFn fuel st b).map (fun st' => update_chain_tip st' b)

/-- Outcome of the parent walk in `_add_block_and_ancestors`. -/
inductive WalkOutcome where
  | confirmAll
  | frontier (cur : Block)
deriving DecidableEq

/-- The `while True` parent walk of `_add_block_and_ancestors`: find
height 0 or a confirmed ancestor (confirm everything), or the first block
whose parent is unknown (the search frontier). -/
def find_unknown_parent (hashFn : Str → List Byte) (st : ForkState) :
    Nat → Block → Option WalkOutcome
  | 0, _ => none
  | fuel + 1, cur =>
    if cur.number = 0 then some .confirmAll
    else if is_confirmed_block st cur.hash then some .confirmAll
    else if ¬ is_known_block st cur.parent_hash then some (.frontier cur)
    else
      match get_parent hashFn st cur with
      | none => none
      | some p => find_unknown_parent hashFn st fuel p

/-- The captured variables of the `_result_handler` closure registered by
`_add_block_and_ancestors`: the missing-parent frontier block and the
block the procedure started from. -/
structure SearchReq where
  cur_block : Block
  orig_block : Block
deriving DecidableEq, Inhabited

/-- Embeds `ForkManager._add_block_and_ancestors`: insert the block, walk the
parents; either confirm the chain, or return the pending search request
issued via `search.search_for("block", cur.parent_hash.hex(), handler)`. -/
def add_block_and_ancestors (hashFn : Str → List Byte) (fuel : Nat)
    (st : ForkState) (block : Block) : Option (ForkState × Option SearchReq) :=
  let st := fork_add_block st block
  match find_unknown_parent hashFn st fuel block with
  | none => none
  | some .confirmAll =>
    (confirm_block_and_ancestors hashFn fuel st block).map (fun st' => (st', none))
  | some (.frontier cur) => some (st, some ⟨cur, block⟩)

/-- Embeds `_result_handler` of `_add_block_and_ancestors`.  The third component
is the Python return value (`none` models Python `None`); the second is a
newly issued search request, if the rerun reached a new frontier. -/
def result_handler (hashFn : Str → List Byte) (fuel : Nat) (req : SearchReq)
    (st : ForkState) : Option Str → Option (ForkState × Option SearchReq × Option Bool)
  | none => some (st, none, none)
  | some data =>
    match Block.deserialize hashFn data with
    | none => none
    | some parent_block =>
      if req.cur_block.parent_hash ≠ parent_block.hash then some (st, none, some false)
      else if req.cur_block.number ≠ parent_block.number + 1 then some (st, none, some true)
      else if ¬ prevalidate_block hashFn parent_block.hash parent_block then
        some (st, none, some true)
      else
        (add_block_and_ancestors hashFn fuel (fork_add_block st parent_block)
          req.orig_block).map (fun r => (r.1, r.2, none))

/-- Embeds `Search._handle_response` specialised to block-search queries, whose
handlers are fork-manager resolvers: look up the pending entry, invoke the
resolver, delete the entry only if the resolver returned `True`
(truthiness of the Python return value), and register the resolver's new
search request (if any) under a fresh query id with the default 60 s
timeout.  The boolean reports whether the resolver was invoked. -/
def handle_response (hashFn : Str → List Byte) (fuel : Nat) (now freshQid : Nat)
    (queries : List (Nat × (Nat × SearchReq))) (fork : ForkState) (qid : Nat)
    (result : Option Str) :
    Option (List (Nat × (Nat × SearchReq)) × ForkState × Bool) :=
  match dlookup queries qid with
  | none => some (queries, fork, false)
  | some (_, req) =>
    match result_handler hashFn fuel req fork result with
    | none => none
    | some (fork', newReq, ret) =>
      let qs := if ret = some true then dpop queries qid else queries
      let qs :=
        match newReq with
        | none => qs
        | some r => dset qs freshQid (now + 60, r)
      some (qs, fork', true)

/-! ### Concrete chain fixtures for the fork-manager and canonicaliser claims -/

/-- A concrete stand-in for SHA-256 in closed scenarios: three zero bytes
(so every block meets difficulty 6) followed by the byte sum of the input
(separating the few serialised forms in play) and zero padding to 32
bytes. -/
def hashSum : Str → List Byte := fun s =>
  0 :: 0 :: 0 :: (⟨s.foldl (· + ·) 0 % 256, Nat.mod_lt _ (by norm_num)⟩ : Byte) ::
    List.replicate 28 0

/-- Build a transaction-free block and compute its hash, as mining /
deserialisation do. -/
def mkBlockS (number nonce : Nat) (parent coinbase : List Byte) : Block :=
  let b : Block := { number, nonce, parent_hash := parent, coinbase,
                     transactions := [], hash := [] }
  { b with hash := b.calculate_hash hashSum }

/-- The genesis block of `_make_genesis`. -/
def gBlock : Block := mkBlockS 0 0 (List.replicate 32 0) (List.replicate 33 0)

/-- Coinbase key of branch A. -/
def cbA : List Byte := List.replicate 32 0 ++ [1]

/-- Coinbase key of branch B. -/
def cbB : List Byte := List.replicate 32 0 ++ [2]

/-- Branch-A block at height 1 on genesis. -/
def aBlock1 : Block := mkBlockS 1 0 gBlock.hash cbA

/-- Branch-B block at height 1 on genesis. -/
def pBlock : Block := mkBlockS 1 0 gBlock.hash cbB

/-- Branch-B block at height 2 on `pBlock`. -/
def bBlock : Block := mkBlockS 2 0 pBlock.hash cbB

/-- The pending block-search request: the frontier is `bBlock` itself
(its parent `pBlock` is unknown), started from `bBlock`. -/
def c8req : SearchReq := { cur_block := bBlock, orig_block := bBlock }

/-- Fork state of a node that knows candidate `bBlock` and has only the
genesis block persisted. -/
def c8fork : ForkState :=
  { known_blocks := [(bBlock.hash, bBlock)], confirmed_blocks := [],
    highest_block := none,
    block_storage := [(bytesHex gBlock.hash, gBlock.serialize)] }

/-- The pending search queries: query id 5 awaits the parent of `bBlock`. -/
def c8queries : List (Nat × (Nat × SearchReq)) := [(5, (60, c8req))]

/-- First delivery of a successful `search:response` carrying the missing
parent. -/
def c8run1 : List (Nat × (Nat × SearchReq)) × ForkState × Bool :=
  (handle_response hashSum 10 0 99 c8queries c8fork 5 (some pBlock.serialize)).getD default

/-- Second delivery of the identical response. -/
def c8run2 : List (Nat × (Nat × SearchReq)) × ForkState × Bool :=
  (handle_response hashSum 10 0 99 c8run1.1 c8run1.2.1 5 (some pBlock.serialize)).getD default

set_option maxRecDepth 100000 in
/-- C8 counterexample: a successful response (matching hash, correct
number, prevalidated) makes the resolver insert the parent and rerun
add-and-confirm — but it returns `None`, not `True`, so `_handle_response`
keeps the pending entry, and a second `search:response` with the same
`query_id` invokes the resolver again. -/
theorem fork_resolver_query_not_completed :
    (handle_response hashSum 10 0 99 c8queries c8fork 5 (some pBlock.serialize)).isSome ∧
    c8run1.2.2 = true ∧
    dlookup c8run1.1 5 = some (60, c8req) ∧
    c8run2.2.2 = true := by
  decide

/-- C8 (amended): when the resolver receives a result whose hash matches
the requested parent hash, whose number is one below the child's, and
which passes prevalidation, it inserts the parent and reruns
add-and-confirm — but it returns `None` (not `True`), so
`_handle_response` retains the pending entry and additional
`search:response` messages with the same `query_id` invoke the resolver
again; the entry is removed only by a response failing the number or
prevalidation check (handler returns `True`) or by timeout. -/
theorem result_handler_success_keeps_query (hashFn : Str → List Byte)
    (fuel now freshQid : Nat) (queries : List (Nat × (Nat × SearchReq)))
    (fork fork' : ForkState) (qid exp : Nat) (req : SearchReq) (data : Str)
    (parent : Block) (newReq : Option SearchReq)
    (hq : dlookup queries qid = some (exp, req))
    (hd : Block.deserialize hashFn data = some parent)
    (hh : req.cur_block.parent_hash = parent.hash)
    (hn : req.cur_block.number = parent.number + 1)
    (hp : prevalidate_block hashFn parent.hash parent = true)
    (hr : add_block_and_ancestors hashFn fuel (fork_add_block fork parent)
            req.orig_block = some (fork', newReq))
    (hfq : freshQid ≠ qid) :
    result_handler hashFn fuel req fork (some data) = some (fork', newReq, none) ∧
    ∃ qs', handle_response hashFn fuel now freshQid queries fork qid (some data) =
             some (qs', fork', true) ∧
           dlookup qs' qid = some (exp, req) := by
  have hrh : result_handler hashFn fuel req fork (some data) =
      some (fork', newReq, none) := by
    simp [result_handler, hd, hh, hn, hp, hr]
  refine ⟨hrh, ?_⟩
  unfold handle_response
  rw [hq]
  simp only [hrh]
  cases newReq with
  | none =>
    refine ⟨queries, ?_, hq⟩
    simp
  | some r =>
    refine ⟨dset queries freshQid (now + 60, r), ?_, ?_⟩
    · simp
    · rw [dlookup_dset_ne _ _ _ _ hfq, hq]

/-- The fork state and new request produced by the successful rerun in the
concrete C8 scenario. -/
def c8after : ForkState × Option SearchReq :=
  (add_block_and_ancestors hashSum 10 (fork_add_block c8fork pBlock)
    c8req.orig_block).getD default

set_option maxRecDepth 100000 in
/-- Witness for the amended C8 theorem in the concrete scenario. -/
theorem result_handler_success_keeps_query_witness :
    (dlookup c8queries 5 = some (60, c8req) ∧
     Block.deserialize hashSum pBlock.serialize = some pBlock ∧
     c8req.cur_block.parent_hash = pBlock.hash ∧
     c8req.cur_block.number = pBlock.number + 1 ∧
     prevalidate_block hashSum pBlock.hash pBlock = true ∧
     add_block_and_ancestors hashSum 10 (fork_add_block c8fork pBlock)
       c8req.orig_block = some (c8after.1, c8after.2) ∧
     (99 : Nat) ≠ 5) ∧
    (result_handler hashSum 10 c8req c8fork (some pBlock.serialize) =
       some (c8after.1, c8after.2, none) ∧
     ∃ qs', handle_response hashSum 10 0 99 c8queries c8fork 5
              (some pBlock.serialize) = some (qs', c8after.1, true) ∧
            dlookup qs' 5 = some (60, c8req)) :=
  ⟨by decide,
   result_handler_success_keeps_query hashSum 10 0 99 c8queries c8fork c8after.1 5 60
     c8req pBlock.serialize pBlock c8after.2 (by decide) (by decide) (by decide)
     (by decide) (by decide) (by decide) (by decide)⟩

/-! ### Chain canonicaliser (`ChainCanonicaliser` in `bcws/blockchain.py`)

`blockchain.py` imports `Storage` and `StorageMaster` from `bcws.storage`,
but the namespace-handle class with `save` / `load` / `exists` used
throughout is not among the sources (the `storage.py` present has an
unrelated object API).  Modelled from the spec: the missing `Storage` is
"a set of namespaces each mapping string keys to opaque string blobs" —
a namespace is an association list keyed by strings, `save` overwrites,
`load` looks up, `exists` tests.  The `blockstate` namespace holds the
JSON text of a `BlockchainState` (`save_to_disk` stores
`json.dumps(state.to_json())` under `str(state.block_number)`,
`load_from_disk` parses it back and asserts the height); as
`to_json`/`from_json` round-trip, the namespace is modelled as storing
the decoded state value.  The `block` namespace is shared with the fork
manager (`ForkState.block_storage`). -/
structure CanonState where
  blocknum_storage : List (Str × Str)
  blockstate_storage : List (Str × BlockchainState)
  latest_num : Nat
  latest_hash : List Byte
deriving DecidableEq, Inhabited

/-- The storage key `"latest"`. -/
def latestKey : Str := [108, 97, 116, 101, 115, 116]

/-- Embeds `ChainCanonicaliser.get_block_by_hash`: load from the `block`
namespace and deserialise; `none` models the raised `ValueError`. -/
def get_block_by_hash (hashFn : Str → List Byte) (fork : ForkState)
    (h : List Byte) : Option Block :=
  match dlookup fork.block_storage (bytesHex h) with
  | none => none
  | some data => Block.deserialize hashFn data

/-- Embeds `ChainCanonicaliser._get_latest_num`: 0 when the key is absent. -/
def get_latest_num (canon : CanonState) : Option Nat :=
  match dlookup canon.blocknum_storage latestKey with
  | none => some 0
  | some s => parseNat s

/-- Embeds `ChainCanonicaliser._get_latest_hash`; `none` models the raised
`ValueError`. -/
def get_latest_hash (canon : CanonState) : Option (List Byte) := do
  let n ← get_latest_num canon
  match dlookup canon.blocknum_storage (natDec n) with
  | none => none
  | some hx => hexToBytes hx

/-- Embeds `ChainCanonicaliser._get_latest_block`. -/
def get_latest_block (hashFn : Str → List Byte) (fork : ForkState)
    (canon : CanonState) : Option Block := do
  let h ← get_latest_hash canon
  get_block_by_hash hashFn fork h

/-- Embeds `BlockchainState.load_from_disk` (with its height assertion). -/
def load_state_from_disk (canon : CanonState) (number : Nat) :
    Option BlockchainState :=
  match dlookup canon.blockstate_storage (natDec number) with
  | none => none
  | some st => if st.block_number = number then some st else none

/-- First `while` loop of `update_canonical`: descend the tip to the
canonical height, collecting the blocks to apply. -/
def canon_walk1 (hashFn : Str → List Byte) (fork : ForkState)
    (curLatestNumber : Nat) : Nat → Block → List Block → Option (Block × List Block)
  | 0, _, _ => none
  | fuel + 1, tip, todo =>
    if tip.number > curLatestNumber then
      match get_parent hashFn fork tip with
      | none => none
      | some p => canon_walk1 hashFn fork curLatestNumber fuel p (todo ++ [tip])
    else some (tip, todo)

/-- Second `while` loop of `update_canonical`: descend both branches to
the common ancestor. -/
def canon_walk2 (hashFn : Str → List Byte) (fork : ForkState) :
    Nat → Block → Block → List Block → Option (Block × List Block)
  | 0, _, _, _ => none
  | fuel + 1, tip, cur, todo =>
    if tip.hash ≠ cur.hash then
      match get_parent hashFn fork tip,
          get_block_by_hash hashFn fork cur.parent_hash with
      | some tip', some cur' => canon_walk2 hashFn fork fuel tip' cur' (todo ++ [tip])
      | _, _ => none
    else some (cur, todo)

/-- The `for block in reversed(todo)` loop of `update_canonical` (taking
the already reversed list): apply each block, check the height assertion,
persist the state snapshot under `blockstate/<number>` and the block hash
under `blocknum/<number>`, update `blocknum/latest` and the in-memory
latest pointers. -/
def canon_apply_loop (verify : List Byte → Str → List Byte → Bool)
    (hashFn : Str → List Byte) :
    List Block → BlockchainState → CanonState → Option CanonState
  | [], _, canon => some canon
  | b :: rest, state, canon =>
    match apply_block verify hashFn b state with
    | .error _ => none
    | .ok state' =>
      if state'.block_number ≠ b.number then none
      else
        canon_apply_loop verify hashFn rest state'
          { canon with
            blockstate_storage :=
              dset canon.blockstate_storage (natDec state'.block_number) state',
            blocknum_storage :=
              dset (dset canon.blocknum_storage (natDec b.number) (bytesHex b.hash))
                latestKey (natDec b.number),
            latest_num := b.number,
            latest_hash := b.hash }

/-- Embeds `ChainCanonicaliser.update_canonical`; `none` models a raised
exception (or exhausted fuel for the unbounded walks). -/
def update_canonical (verify : List Byte → Str → List Byte → Bool)
    (hashFn : Str → List Byte) (fuel : Nat) (fork : ForkState)
    (canon : CanonState) : Option CanonState :=
  match fork.highest_block with
  | none => some canon
  | some tip =>
    match get_latest_block hashFn fork canon with
    | none => none
    | some curLatest =>
      match canon_walk1 hashFn fork curLatest.number fuel tip [] with
      | none => none
      | some (tip', todo) =>
        match canon_walk2 hashFn fork fuel tip' curLatest todo with
        | none => none
        | some (ancestor, todo') =>
          match load_state_from_disk canon ancestor.number with
          | none => none
          | some state => canon_apply_loop verify hashFn todo'.reverse state canon

/-! ### C9 fixtures: a reorg from branch A (height 1) to branch B (height 2) -/

/-- Genesis state. -/
def c9S0 : BlockchainState :=
  { block_number := 0, block_hash := gBlock.hash, balances := [], nonces := [] }

/-- State after applying branch-A block 1 (what `blockstate/1` holds). -/
def c9SA1 : BlockchainState :=
  { block_number := 1, block_hash := aBlock1.hash, balances := [(cbA, 10000)],
    nonces := [] }

/-- State after applying branch-B block 1 (what overwrites `blockstate/1`). -/
def c9SB1 : BlockchainState :=
  { block_number := 1, block_hash := pBlock.hash, balances := [(cbB, 10000)],
    nonces := [] }

/-- Fork-manager view: branch B is known and its tip is highest; genesis
and branch A are persisted. -/
def c9fork : ForkState :=
  { known_blocks := [(pBlock.hash, pBlock), (bBlock.hash, bBlock)],
    confirmed_blocks := [],
    highest_block := some bBlock,
    block_storage := [(bytesHex gBlock.hash, gBlock.serialize),
      (bytesHex aBlock1.hash, aBlock1.serialize),
      (bytesHex pBlock.hash, pBlock.serialize),
      (bytesHex bBlock.hash, bBlock.serialize)] }

/-- Canonical store before the reorg: branch A is canonical at height 1,
with snapshots at heights 0 and 1. -/
def c9canon : CanonState :=
  { blocknum_storage := [(latestKey, natDec 1), (natDec 0, bytesHex gBlock.hash),
      (natDec 1, bytesHex aBlock1.hash)],
    blockstate_storage := [(natDec 0, c9S0), (natDec 1, c9SA1)],
    latest_num := 1, latest_hash := aBlock1.hash }

set_option maxRecDepth 100000 in
/-- C9 counterexample: before the reorg `blockstate/1` holds branch A's
snapshot; `update_canonical` reorgs to branch B and rewrites the value
stored at that key with branch B's (different) state at height 1. -/
theorem canonical_snapshot_rewritten :
    dlookup c9canon.blockstate_storage (natDec 1) = some c9SA1 ∧
    (update_canonical verifyAll hashSum 10 c9fork c9canon).isSome ∧
    dlookup ((update_canonical verifyAll hashSum 10 c9fork c9canon).getD
      default).blockstate_storage (natDec 1) = some c9SB1 ∧
    c9SB1 ≠ c9SA1 := by
  decide

theorem natDec_inj (m n : Nat) (h : natDec m = natDec n) : m = n := by
  have hm := parseNat_natDec m
  rw [h, parseNat_natDec n] at hm
  exact (Option.some.inj hm).symm

theorem apply_block_ok_numbers (verify : List Byte → Str → List Byte → Bool)
    (hashFn : Str → List Byte) (b : Block) (state state' : BlockchainState)
    (h : apply_block verify hashFn b state = .ok state') :
    b.number = state.block_number + 1 ∧ state'.block_number = b.number ∧
    state'.block_hash = b.calculate_hash hashFn := by
  have hiff := (apply_block_ok_iff verify hashFn b state state').mp h
  refine ⟨hiff.1, ?_, ?_⟩ <;> rw [hiff.2.2.2.2]

theorem canon_apply_loop_preserves_low (verify : List Byte → Str → List Byte → Bool)
    (hashFn : Str → List Byte) (blocks : List Block) :
    ∀ (state : BlockchainState) (canon canon' : CanonState),
      canon_apply_loop verify hashFn blocks state canon = some canon' →
      ∀ m, m ≤ state.block_number →
        dlookup canon'.blockstate_storage (natDec m) =
          dlookup canon.blockstate_storage (natDec m) := by
  induction blocks with
  | nil =>
    intro state canon canon' h m hm
    cases h
    rfl
  | cons b rest ih =>
    intro state canon canon' h m hm
    unfold canon_apply_loop at h
    split at h
    · cases h
    · rename_i state' hab
      split_ifs at h with hnum
      · have hnums := apply_block_ok_numbers verify hashFn b state state' hab
        have hloop : canon_apply_loop verify hashFn rest state'
            { canon with
              blockstate_storage :=
                dset canon.blockstate_storage (natDec state'.block_number) state',
              blocknum_storage :=
                dset (dset canon.blocknum_storage (natDec b.number) (bytesHex b.hash))
                  latestKey (natDec b.number),
              latest_num := b.number, latest_hash := b.hash } = some canon' := h
        rw [ih state' _ canon' hloop m (by omega)]
        exact dlookup_dset_ne _ _ _ _
          (fun hc => by have := natDec_inj _ _ hc; omega)

theorem canon_apply_loop_rewrites (verify : List Byte → Str → List Byte → Bool)
    (hashFn : Str → List Byte) (blocks : List Block) :
    ∀ (state : BlockchainState) (canon canon' : CanonState),
      canon_apply_loop verify hashFn blocks state canon = some canon' →
      ∀ b ∈ blocks, ∃ s',
        dlookup canon'.blockstate_storage (natDec b.number) = some s' ∧
        s'.block_number = b.number ∧ s'.block_hash = b.calculate_hash hashFn := by
  induction blocks with
  | nil =>
    intro state canon canon' h b hb
    simp at hb
  | cons b0 rest ih =>
    intro state canon canon' h b hb
    unfold canon_apply_loop at h
    split at h
    · cases h
    · rename_i state' hab
      split_ifs at h with hnum
      · have hnums := apply_block_ok_numbers verify hashFn b0 state state' hab
        have hloop : canon_apply_loop verify hashFn rest state'
            { canon with
              blockstate_storage :=
                dset canon.blockstate_storage (natDec state'.block_number) state',
              blocknum_storage :=
                dset (dset canon.blocknum_storage (natDec b0.number) (bytesHex b0.hash))
                  latestKey (natDec b0.number),
              latest_num := b0.number, latest_hash := b0.hash } = some canon' := h
        rcases List.mem_cons.mp hb with rfl | hbr
        · refine ⟨state', ?_, by omega, hnums.2.2⟩
          rw [canon_apply_loop_preserves_low verify hashFn rest state' _ canon' hloop
            b.number (by omega)]
          have hkey : natDec b.number = natDec state'.block_number := by
            rw [hnums.2.1]
          rw [hkey]
          exact dlookup_dset_self _ _ _
        · exact ih state' _ canon' hloop b hbr

/-- C9 (amended): `update_canonical` is the apply loop over the collected
branch (`todo`, reversed), and the loop rewrites `blockstate/<B.number>`
for every block it applies — on a reorg this includes heights that already
hold snapshots of the old branch, whose stored values are overwritten with
the new branch's states (the stored state's hash pins the new branch).
Snapshots are NOT preserved across reorgs. -/
theorem update_canonical_rewrites_snapshots
    (verify : List Byte → Str → List Byte → Bool) (hashFn : Str → List Byte)
    (fuel : Nat) (fork : ForkState) (canon : CanonState)
    (tip curLatest tip' ancestor : Block) (todo todo' : List Block)
    (state : BlockchainState)
    (h1 : fork.highest_block = some tip)
    (h2 : get_latest_block hashFn fork canon = some curLatest)
    (h3 : canon_walk1 hashFn fork curLatest.number fuel tip [] = some (tip', todo))
    (h4 : canon_walk2 hashFn fork fuel tip' curLatest todo = some (ancestor, todo'))
    (h5 : load_state_from_disk canon ancestor.number = some state) :
    update_canonical verify hashFn fuel fork canon =
      canon_apply_loop verify hashFn todo'.reverse state canon ∧
    ∀ canon', canon_apply_loop verify hashFn todo'.reverse state canon = some canon' →
      ∀ b ∈ todo', ∃ s',
        dlookup canon'.blockstate_storage (natDec b.number) = some s' ∧
        s'.block_number = b.number ∧ s'.block_hash = b.calculate_hash hashFn := by
  constructor
  · simp only [update_canonical, h1, h2, h3, h4, h5]
  · intro canon' h b hb
    exact canon_apply_loop_rewrites verify hashFn todo'.reverse state canon canon' h b
      (List.mem_reverse.mpr hb)

set_option maxRecDepth 100000 in
/-- Witness for the amended C9 theorem at the concrete reorg: the branch
to apply is `[pBlock, bBlock]` from the genesis snapshot, and height 1
(previously branch A's snapshot) is rewritten. -/
theorem update_canonical_rewrites_snapshots_witness :
    (c9fork.highest_block = some bBlock ∧
     get_latest_block hashSum c9fork c9canon = some aBlock1 ∧
     canon_walk1 hashSum c9fork aBlock1.number 10 bBlock [] = some (pBlock, [bBlock]) ∧
     canon_walk2 hashSum c9fork 10 pBlock aBlock1 [bBlock] =
       some (gBlock, [bBlock, pBlock]) ∧
     load_state_from_disk c9canon gBlock.number = some c9S0) ∧
    (update_canonical verifyAll hashSum 10 c9fork c9canon =
       canon_apply_loop verifyAll hashSum [bBlock, pBlock].reverse c9S0 c9canon ∧
     ∀ canon', canon_apply_loop verifyAll hashSum [bBlock, pBlock].reverse c9S0 c9canon =
         some canon' →
       ∀ b ∈ [bBlock, pBlock], ∃ s',
         dlookup canon'.blockstate_storage (natDec b.number) = some s' ∧
         s'.block_number = b.number ∧ s'.block_hash = b.calculate_hash hashSum) :=
  ⟨by decide,
   update_canonical_rewrites_snapshots verifyAll hashSum 10 c9fork c9canon bBlock
     aBlock1 pBlock gBlock [bBlock] [bBlock, pBlock] c9S0 (by decide) (by decide)
     (by decide) (by decide) (by decide)⟩
